import Mathlib

/-!
Shallow embedding of the MLQ scheduling simulator
(`src/fcfs.py`, `src/Round_robin.py`, `src/mlq.py`).

Times are Python ints, modelled as `Int` (waiting times can go negative
because the engines never idle-wait).  Fallible operations (list indexing
that can raise `IndexError`, `int()` parsing that can raise `ValueError`,
potential non-termination of the Round-Robin loop) are modelled with
`Option`: `none` means the Python run raises or never terminates.
-/

namespace MLQSched

/-- Process control block.  The class `PCB` lives in `Pcb.py`, which is not
part of `src/`; its fields are reconstructed from the getters/setters the
engines call (`get_at`, `get_bt`, `get_te`, `set_ct`, `set_wt`, `set_rt`,
`set_tat`, `set_et`, `set_done`, `is_done`, `get_queue`, `get_priority`). -/
structure PCB where
  at_ : Int
  bt : Int
  te : Int
  ct : Int
  wt : Int
  rt : Int
  tat : Int
  et : Int
  done : Bool
  queue : Nat
  priority : String
deriving DecidableEq

/-- `Process` (from `process.py`, not in `src/`): an immutable tag paired
with the PCB holding all mutable timing state. -/
structure Process where
  tag : String
  pcb : PCB
deriving DecidableEq

/-- Modelled from the spec: `Pcb.py` is not in `src/`.  Spec §3 lifecycle:
"PCB is created with AT/BT fixed, RT=unset, TE=0, done=false", with "RT uses
an explicit unset sentinel, e.g. a negative value" — we use `-1`. -/
def initPCB (at_ bt : Int) (queue : Nat) (priority : String) : PCB :=
  { at_ := at_, bt := bt, te := 0, ct := 0, wt := 0, rt := -1, tat := 0,
    et := 0, done := false, queue := queue, priority := priority }

/-- Modelled from the spec: `process.py` is not in `src/`.  Spec §7:
"NonTerminatingProcess — BT ≤ 0: rejected at construction, before any
engine runs, to avoid infinite preemption loops."  Construction of a
process therefore fails (`none`) exactly when BT ≤ 0. -/
def mkProcess (tag : String) (at_ bt : Int) (queue : Nat) (priority : String) :
    Option Process :=
  if bt ≤ 0 then none else some { tag := tag, pcb := initPCB at_ bt queue priority }

/-- Plain builder for concrete queues in examples (a freshly constructed
process with the spec §3 initial PCB). -/
def mkP (tag : String) (at_ bt : Int) : Process :=
  { tag := tag, pcb := initPCB at_ bt 1 "1" }

/-! ## Shared queue ordering

`FCFS._order_queue` (fcfs.py:48-56) and `RoundRobin.__order_queue`
(Round_robin.py:115-123) are textually identical, so they are embedded
once.  Python's `list.sort(key=...)` is a stable sort by the key tuple;
we model it with a stable insertion sort.  `int(tag[1:])` can raise
`ValueError`, and `queue[-1]` raises `IndexError` on an empty queue, hence
the `Option` result. -/

/-- Python `int(s)` restricted to an optional sign followed by decimal
digits (the shape tags actually have); `none` models `ValueError`. -/
def digitsToNat : List Char → Option Nat
  | [] => none
  | cs => cs.foldl (fun acc c => match acc with
      | none => none
      | some n => if c.isDigit then some (n * 10 + (c.toNat - 48)) else none)
      (some 0)

def strToInt (s : List Char) : Option Int :=
  match s with
  | '-' :: cs => (digitsToNat cs).map (fun n => -(n : Int))
  | '+' :: cs => (digitsToNat cs).map (fun n => (n : Int))
  | cs => (digitsToNat cs).map (fun n => (n : Int))

/-- `int(p.get_tag()[1:])`: the integer suffix of a tag. -/
def tagSuffix (p : Process) : Option Int := strToInt p.tag.data.tail

/-- `tag.startswith("p")`. -/
def tagStartsP (p : Process) : Bool :=
  match p.tag.data with
  | c :: _ => c = 'p'
  | [] => false

/-- Python string `<`: lexicographic on code points. -/
def strLt : List Char → List Char → Bool
  | [], [] => false
  | [], _ :: _ => true
  | _ :: _, [] => false
  | a :: as, b :: bs =>
      if a.toNat < b.toNat then true
      else if b.toNat < a.toNat then false
      else strLt as bs

/-- Sort key comparison for the numeric-suffix branch:
Python tuple `(at, int(tag[1:]))` with `≤`.  The suffix is read with a
default that is never used on queues where every suffix parses. -/
def leSuffix (p q : Process) : Bool :=
  decide (p.pcb.at_ < q.pcb.at_ ∨
    (p.pcb.at_ = q.pcb.at_ ∧
      (tagSuffix p).getD 0 ≤ (tagSuffix q).getD 0))

/-- Sort key comparison for the lexicographic branch: tuple `(at, tag)`. -/
def leTag (p q : Process) : Bool :=
  if p.pcb.at_ < q.pcb.at_ then true
  else if q.pcb.at_ < p.pcb.at_ then false
  else !(strLt q.tag.data p.tag.data)

/-- Stable insertion of `x` into a run already sorted by `le`: `x` goes
after every element `y` with `le y x` (earlier equal-key elements stay in
front, matching Python's stable sort). -/
def insertLe (le : Process → Process → Bool) (x : Process) :
    List Process → List Process
  | [] => [x]
  | y :: ys => if le y x then y :: insertLe le x ys else x :: y :: ys

def insSortAux (le : Process → Process → Bool) :
    List Process → List Process → List Process
  | acc, [] => acc
  | acc, x :: xs => insSortAux le (insertLe le x acc) xs

/-- Stable sort by `le` (left-to-right insertion). -/
def insSort (le : Process → Process → Bool) (xs : List Process) : List Process :=
  insSortAux le [] xs

/-- `_order_queue` / `__order_queue` (fcfs.py:48-56, Round_robin.py:115-123):
if the LAST element's tag starts with `"p"`, sort by `(AT, int(tag[1:]))`
(raising if any suffix is non-numeric), otherwise by `(AT, tag)`.
`queue[-1]` on an empty queue raises `IndexError` (`none`). -/
def order_queue (q : List Process) : Option (List Process) :=
  match q.getLast? with
  | none => none
  | some last =>
      if tagStartsP last then
        match q.mapM tagSuffix with
        | none => none
        | some _ => some (insSort leSuffix q)
      else some (insSort leTag q)

/-! ## FCFS engine (fcfs.py)

`start_processing` orders the queue then runs `_excecute_process` once per
process: at clock `t` it sets RT=t, WT=t−AT, advances the clock by BT,
then sets CT and TAT.  TE and done are never touched.
`_calculate_metrics` only fills private average fields and is omitted
(it cannot fail here: the empty queue already failed in `_order_queue`). -/

/-- The fold performed by the `for` loop of `FCFS.start_processing`
(fcfs.py:32-36) via `_excecute_process` (fcfs.py:59-74). -/
def fcfsExec : List Process → Int → List Process × Int
  | [], t => ([], t)
  | p :: ps, t =>
      let pcb := p.pcb
      let pcb := { pcb with rt := t, wt := t - pcb.at_ }
      let t' := t + pcb.bt
      let pcb := { pcb with ct := t', tat := t' - pcb.at_ }
      let r := fcfsExec ps t'
      ({ p with pcb := pcb } :: r.1, r.2)

/-- `FCFS.start_processing` followed by `get_time`: returns the mutated
queue and the advanced clock, or `none` if ordering raised. -/
def fcfsStart (q : List Process) (t : Int) : Option (List Process × Int) :=
  (order_queue q).map (fun sorted => fcfsExec sorted t)

/-! ## Round Robin engine (Round_robin.py)

`start_processing` orders the queue, then repeatedly picks the next
process (`__next_process`) and runs it for up to one quantum
(`__excecute_process`); the per-slice loop always ends in a
`ProcessExpropiatedException` when the quantum is positive.  A zero
quantum makes `start_processing` spin forever (the slice loop body never
runs, no exception is raised, and the same process is retried), which we
model as `none`; the driver itself carries fuel, `none` on exhaustion
standing for non-termination. -/

/-- Mutable state of a `RoundRobin` object: the (sorted) queue, the clock
`__time`, `__initial_time` and `__current_process_index`.
(`__current_process_started` is only read inside the same
`__excecute_process` call that wrote it, so it stays local.) -/
structure RRState where
  queue : List Process
  time : Int
  initialTime : Int
  currentIndex : Nat
deriving DecidableEq

/-- The `for i in range(quantum)` loop of `__excecute_process`
(Round_robin.py:75-85), counting down the iterations that remain: each
tick advances the clock and decrements the remaining burst; if the burst
hits zero the slice ends finished (`true`), on the last iteration it ends
preempted (`false`).  `none` models falling out of the loop without the
exception (only possible when the quantum is 0). -/
def execLoop : Nat → Int → Int → Option (Int × Bool)
  | 0, _, _ => none
  | k + 1, t, rem =>
      let t' := t + 1
      let rem' := rem - 1
      if rem' = 0 then some (t', true)
      else if k = 0 then some (t', false)
      else execLoop k t' rem'

/-- `__state_save` (Round_robin.py:126-135): ET := clock, TE += ticks run
this slice (clock minus slice start), RT := slice start if RT is still the
negative unset sentinel. -/
def state_save (pcb : PCB) (started t : Int) : PCB :=
  { pcb with
    et := t,
    te := pcb.te + (t - started),
    rt := if pcb.rt < 0 then started else pcb.rt }

/-- `__mark_process_done` (Round_robin.py:153-163): done, CT := clock,
WT := CT−AT−BT, TAT := CT−AT. -/
def mark_process_done (pcb : PCB) (t : Int) : PCB :=
  { pcb with
    done := true, ct := t, wt := t - pcb.at_ - pcb.bt,
    tat := t - pcb.at_ }

/-- `__state_restore` (Round_robin.py:138-146): the remaining burst
`BT − TE`. -/
def state_restore (pcb : PCB) : Int := pcb.bt - pcb.te

/-- `__excecute_process` (Round_robin.py:63-86) on the process at index
`j`: remember the slice start, run the tick loop on the remaining burst
`BT − TE` (`__state_restore`), then `__state_save` and, when the burst
finished, `__mark_process_done` (in that order).  `j` is the index
`__queue.index(p)` of the process that `__next_process` returned: Python
compares the distinct `Process` objects by identity, so it recovers
exactly the index the scan found. -/
def excecute_process (quantum : Nat) (s : RRState) (j : Nat) :
    Option RRState :=
  match s.queue.get? j with
  | none => none
  | some p =>
      match execLoop quantum s.time (state_restore p.pcb) with
      | none => none
      | some (t', finished) =>
          let pcb := state_save p.pcb s.time t'
          let pcb := if finished then mark_process_done pcb t' else pcb
          some { s with queue := s.queue.set j { p with pcb := pcb },
                        time := t', currentIndex := j }

/-- The PCB produced by one slice that started at clock `started` and
ended at clock `t'` with outcome `finished`: `state_save`, then
additionally `mark_process_done` when the burst finished. -/
def slicePCB (pcb : PCB) (started t' : Int) (finished : Bool) : PCB :=
  if finished then mark_process_done (state_save pcb started t') t'
  else state_save pcb started t'

/-- The state produced by one slice of `__excecute_process` on the
process `p` at index `j`, when the tick loop ends at clock `t'` with
outcome `finished` (spelled out for the slice-characterisation lemmas). -/
def sliceResult (s : RRState) (j : Nat) (p : Process) (t' : Int)
    (finished : Bool) : RRState :=
  { queue := s.queue.set j { p with pcb := slicePCB p.pcb s.time t' finished },
    time := t',
    initialTime := s.initialTime,
    currentIndex := j }

/-- Scan of the queue from position `k` on for a not-done process,
returning its index (the two scanning loops of `__next_process`). -/
def findFromAux : List Process → Nat → Option Nat
  | [], _ => none
  | p :: ps, k => if p.pcb.done then findFromAux ps (k + 1) else some k

/-- First index `i ≥ k` whose process is not done. -/
def findFrom (q : List Process) (k : Nat) : Option Nat :=
  findFromAux (q.drop k) k

/-- `__next_process` (Round_robin.py:91-114), returning the index of the
chosen process: at the very first dispatch (clock still equals the start
time) it returns `queue[0]` unconditionally (`IndexError` on an empty
queue falls through to the wrap-around scan of an empty list, i.e.
`None`); afterwards it scans indices after `__current_process_index` for a
not-done process and, when that scan runs off the end, wraps around to
scan the whole queue; `none` means every process is done. -/
def next_process (s : RRState) : Option Nat :=
  if s.time = s.initialTime then
    if s.queue.isEmpty then none else some 0
  else
    match findFrom s.queue (s.currentIndex + 1) with
    | some j => some j
    | none => findFrom s.queue 0

/-- The `while next_process is not None` loop of `start_processing`
(Round_robin.py:42-51): execute a slice, re-select, repeat.  Fuel bounds
the number of slices; exhaustion (`none`) models non-termination. -/
def rrLoop (quantum : Nat) : Nat → RRState → Option RRState
  | 0, _ => none
  | fuel + 1, s =>
      match next_process s with
      | none => some s
      | some j =>
          match excecute_process quantum s j with
          | none => none
          | some s' => rrLoop quantum fuel s'

/-- `RoundRobin.start_processing` followed by `get_time`: order the queue,
run the dispatch loop from the given start time, return the mutated queue
and final clock. -/
def rrStart (quantum fuel : Nat) (q : List Process) (t : Int) :
    Option (List Process × Int) :=
  match order_queue q with
  | none => none
  | some sorted =>
      match rrLoop quantum fuel
          { queue := sorted, time := t, initialTime := t, currentIndex := 0 } with
      | none => none
      | some s => some (s.queue, s.time)

/-! ## MLQ dispatcher (mlq.py)

`__read_file` parses descriptors (external I/O, excluded), tracks the
highest declared queue number, builds that many empty queues and appends
each process to queue `get_queue() - 1`.  `start_processing` walks the
queues in index order: a non-empty queue at index 0 runs under RR(3), at
index 1 under RR(5), at index 2 under FCFS, and any later index matches
no branch, so its processes are never executed; the clock threads from
each engine's end time into the next engine. -/

/-- The running maximum of declared queue numbers (mlq.py:59-71). -/
def maxQueue (ps : List Process) : Nat :=
  ps.foldl (fun m p => if p.pcb.queue > m then p.pcb.queue else m) 0

/-- The partition step of `MLQ.__read_file` (mlq.py:73-77): `max_queues`
empty queues, then each process appended to `queues[queue - 1]`.  Queue
numbers are 1-based positive integers (spec §6); a declared queue number
of 0 would make Python index `queues[-1]`, modelled here as `none`. -/
def partitionQueues (ps : List Process) : Option (List (List Process)) :=
  let n := maxQueue ps
  ps.foldlM (fun qs p =>
      if p.pcb.queue = 0 then none
      else some (qs.set (p.pcb.queue - 1)
        (qs.getD (p.pcb.queue - 1) [] ++ [p])))
    (List.replicate n ([] : List Process))

/-- Fuel that is spent one unit per Round-Robin slice; each slice runs at
least one tick of a live process, so the total burst plus one is enough. -/
def rrFuel (q : List Process) : Nat :=
  (q.map (fun p => p.pcb.bt.toNat)).sum + 1

/-- One iteration of the `for` loop of `MLQ.start_processing`
(mlq.py:34-48) at queue index `i`: empty queues are skipped, index 0 runs
RR(quantum 3), index 1 RR(quantum 5), index 2 FCFS, and any index ≥ 3
matches no branch — the queue is left untouched and the clock unchanged. -/
def mlqStep (i : Nat) (q : List Process) (t : Int) :
    Option (List Process × Int) :=
  if q.length > 0 then
    if i = 0 then rrStart 3 (rrFuel q) q t
    else if i = 1 then rrStart 5 (rrFuel q) q t
    else if i = 2 then fcfsStart q t
    else some (q, t)
  else some (q, t)

/-- The loop of `MLQ.start_processing` from queue index `i` on, threading
the clock through the steps. -/
def mlqRunFrom (i : Nat) (qs : List (List Process)) (t : Int) :
    Option (List (List Process) × Int) :=
  match qs with
  | [] => some ([], t)
  | q :: rest =>
      match mlqStep i q t with
      | none => none
      | some (q', t') =>
          match mlqRunFrom (i + 1) rest t' with
          | none => none
          | some (rest', t'') => some (q' :: rest', t'')

/-- `MLQ.start_processing` on already-partitioned queues, from clock 0
(`__time` is initialised to 0 in `MLQ.__init__`). -/
def mlqStart (qs : List (List Process)) : Option (List (List Process) × Int) :=
  mlqRunFrom 0 qs 0

/-! ## Derived notions used by the verification -/

/-- The metrics the spec compares across engines: tag, WT, CT, RT, TAT. -/
def metricsView (p : Process) : String × Int × Int × Int × Int :=
  (p.tag, p.pcb.wt, p.pcb.ct, p.pcb.rt, p.pcb.tat)

/-- A "letter+digits label" in the sense of the spec's ordering rule:
one alphabetic character followed by one or more digits. -/
def isLetterDigits (s : String) : Bool :=
  match s.data with
  | c :: rest => c.isAlpha && rest.all (fun d => d.isDigit) && !rest.isEmpty
  | [] => false

/-- The ordering rule as the spec words it (for comparison with
`order_queue`, which is the one taken from the source): "sort ascending by
AT; tie-break by the integer suffix of the tag if every tag in the queue
is a letter+digits label, else by tag lexicographic order". -/
def spec_order_queue (q : List Process) : List Process :=
  if q.all (fun p => isLetterDigits p.tag) then insSort leSuffix q
  else insSort leTag q

/-- A freshly constructed process: TE=0, RT still the unset sentinel,
not done (spec §3 lifecycle). -/
def freshPCB (p : Process) : Prop :=
  p.pcb.te = 0 ∧ p.pcb.rt < 0 ∧ p.pcb.done = false

/-- The per-PCB invariant maintained by Round Robin: TE is non-negative,
equals BT on done processes and stays strictly below BT on live ones. -/
def pcbInv (p : Process) : Prop :=
  0 ≤ p.pcb.te ∧
  (p.pcb.done = true → p.pcb.te = p.pcb.bt) ∧
  (p.pcb.done = false → p.pcb.te < p.pcb.bt)

/-- Run-time invariant of a `RoundRobin` object, strong enough to give
RT ≤ CT − BT for completed processes: the run started at a non-negative
clock (otherwise the negative-RT "unset" sentinel is ambiguous), the
clock never went backwards from
the start time, the clock still sitting at the start time means nothing
has run yet, and each PCB satisfies `pcbInv` plus the response-time
accounting (an unset RT means nothing executed; a set RT bounds TE by the
time elapsed since first dispatch; a done process has RT ≤ CT − BT). -/
def RInv (s : RRState) : Prop :=
  0 ≤ s.initialTime ∧
  s.initialTime ≤ s.time ∧
  (s.time = s.initialTime → ∀ p ∈ s.queue, p.pcb.done = false) ∧
  ∀ p ∈ s.queue, pcbInv p ∧
    (p.pcb.rt < 0 → p.pcb.te = 0) ∧
    (0 ≤ p.pcb.rt → p.pcb.te ≤ s.time - p.pcb.rt) ∧
    (p.pcb.done = true → p.pcb.rt ≤ p.pcb.ct - p.pcb.bt)

/-- Total remaining burst: the termination measure of the Round-Robin
loop (each slice strictly decreases it; under `pcbInv` a done process
contributes 0). -/
def totalRem (l : List Process) : Nat :=
  (l.map (fun p => (p.pcb.bt - p.pcb.te).toNat)).sum

/-! ## Sorting infrastructure -/

theorem insertLe_perm (le : Process → Process → Bool) (x : Process) :
    ∀ l : List Process, (insertLe le x l).Perm (x :: l)
  | [] => List.Perm.refl _
  | y :: ys => by
      unfold insertLe
      by_cases h : le y x = true
      · simp only [h, if_true]
        exact ((insertLe_perm le x ys).cons y).trans (List.Perm.swap x y ys)
      · simp [h]

theorem mem_insertLe (le : Process → Process → Bool) (x z : Process)
    (l : List Process) : z ∈ insertLe le x l ↔ z = x ∨ z ∈ l := by
  rw [(insertLe_perm le x l).mem_iff, List.mem_cons]

theorem insertLe_pairwise (le : Process → Process → Bool)
    (htot : ∀ a b, le a b = true ∨ le b a = true)
    (htrans : ∀ a b c, le a b = true → le b c = true → le a c = true)
    (x : Process) :
    ∀ l : List Process, l.Pairwise (fun a b => le a b = true) →
      (insertLe le x l).Pairwise (fun a b => le a b = true)
  | [], _ => by simp [insertLe]
  | y :: ys, hl => by
      rw [List.pairwise_cons] at hl
      obtain ⟨hy, hys⟩ := hl
      unfold insertLe
      by_cases h : le y x = true
      · simp only [h, if_true]
        rw [List.pairwise_cons]
        refine ⟨?_, insertLe_pairwise le htot htrans x ys hys⟩
        intro z hz
        rcases (mem_insertLe le x z ys).1 hz with hz | hz
        · exact hz ▸ h
        · exact hy z hz
      · have hxy : le x y = true := (htot x y).resolve_right h
        rw [if_neg h, List.pairwise_cons]
        refine ⟨?_, List.pairwise_cons.2 ⟨hy, hys⟩⟩
        intro z hz
        rcases List.mem_cons.1 hz with hz | hz
        · exact hz ▸ hxy
        · exact htrans x y z hxy (hy z hz)

theorem insSortAux_perm (le : Process → Process → Bool) :
    ∀ (xs acc : List Process), (insSortAux le acc xs).Perm (acc ++ xs)
  | [], acc => by simp [insSortAux]
  | x :: xs, acc => by
      unfold insSortAux
      have h1 := insSortAux_perm le xs (insertLe le x acc)
      have h2 : (insertLe le x acc ++ xs).Perm ((x :: acc) ++ xs) :=
        (insertLe_perm le x acc).append_right xs
      have h3 : ((x :: acc) ++ xs).Perm (acc ++ x :: xs) := List.perm_middle.symm
      exact (h1.trans h2).trans h3

theorem insSort_perm (le : Process → Process → Bool) (xs : List Process) :
    (insSort le xs).Perm xs := by
  simpa [insSort] using insSortAux_perm le xs []

theorem insSortAux_pairwise (le : Process → Process → Bool)
    (htot : ∀ a b, le a b = true ∨ le b a = true)
    (htrans : ∀ a b c, le a b = true → le b c = true → le a c = true) :
    ∀ (xs acc : List Process), acc.Pairwise (fun a b => le a b = true) →
      (insSortAux le acc xs).Pairwise (fun a b => le a b = true)
  | [], _, hacc => hacc
  | x :: xs, acc, hacc =>
      insSortAux_pairwise le htot htrans xs (insertLe le x acc)
        (insertLe_pairwise le htot htrans x acc hacc)

theorem insSort_pairwise (le : Process → Process → Bool)
    (htot : ∀ a b, le a b = true ∨ le b a = true)
    (htrans : ∀ a b c, le a b = true → le b c = true → le a c = true)
    (xs : List Process) :
    (insSort le xs).Pairwise (fun a b => le a b = true) :=
  insSortAux_pairwise le htot htrans xs [] (List.Pairwise.nil)

theorem leSuffix_total (a b : Process) :
    leSuffix a b = true ∨ leSuffix b a = true := by
  simp only [leSuffix, decide_eq_true_eq]
  omega

theorem leSuffix_trans (a b c : Process) (h1 : leSuffix a b = true)
    (h2 : leSuffix b c = true) : leSuffix a c = true := by
  simp only [leSuffix, decide_eq_true_eq] at *
  omega

theorem strLt_asymm : ∀ x y : List Char,
    strLt x y = true → strLt y x = false
  | [], [] => by simp [strLt]
  | [], _ :: _ => by simp [strLt]
  | _ :: _, [] => by simp [strLt]
  | a :: as, b :: bs => by
      simp only [strLt]
      by_cases hab : a.toNat < b.toNat
      · intro _
        rw [if_neg (by omega), if_pos hab]
      · rw [if_neg hab]
        by_cases hba : b.toNat < a.toNat
        · simp [hba]
        · rw [if_neg hba, if_neg hba, if_neg hab]
          exact strLt_asymm as bs

theorem strLt_false_trans : ∀ x y z : List Char,
    strLt x y = false → strLt y z = false → strLt x z = false
  | [], y, z, h1, h2 => by
      cases y with
      | nil => exact h2
      | cons b bs => simp [strLt] at h1
  | _ :: _, [], z, _, h2 => by
      cases z with
      | nil => rfl
      | cons c cs => simp [strLt] at h2
  | _ :: _, _ :: _, [], _, _ => rfl
  | a :: as, b :: bs, c :: cs, h1, h2 => by
      simp only [strLt] at h1 h2 ⊢
      by_cases hab : a.toNat < b.toNat
      · simp [hab] at h1
      · rw [if_neg hab] at h1
        by_cases hbc : b.toNat < c.toNat
        · simp [hbc] at h2
        · rw [if_neg hbc] at h2
          rw [if_neg (by omega : ¬a.toNat < c.toNat)]
          by_cases hca : c.toNat < a.toNat
          · rw [if_pos hca]
          · rw [if_neg hca]
            have hba : ¬b.toNat < a.toNat := by omega
            have hcb : ¬c.toNat < b.toNat := by omega
            rw [if_neg hba] at h1
            rw [if_neg hcb] at h2
            exact strLt_false_trans as bs cs h1 h2

theorem leTag_iff (a b : Process) :
    leTag a b = true ↔
      a.pcb.at_ < b.pcb.at_ ∨
        (a.pcb.at_ = b.pcb.at_ ∧ strLt b.tag.data a.tag.data = false) := by
  unfold leTag
  by_cases h1 : a.pcb.at_ < b.pcb.at_
  · simp [h1]
  · rw [if_neg h1]
    by_cases h2 : b.pcb.at_ < a.pcb.at_
    · simp [h2]
      omega
    · rw [if_neg h2]
      have he : a.pcb.at_ = b.pcb.at_ := by omega
      cases h3 : strLt b.tag.data a.tag.data <;> simp [he, h3, h1]

theorem leTag_total (a b : Process) : leTag a b = true ∨ leTag b a = true := by
  rw [leTag_iff, leTag_iff]
  rcases lt_trichotomy a.pcb.at_ b.pcb.at_ with h | h | h
  · exact Or.inl (Or.inl h)
  · cases h3 : strLt b.tag.data a.tag.data with
    | false => exact Or.inl (Or.inr ⟨h, rfl⟩)
    | true => exact Or.inr (Or.inr ⟨h.symm, strLt_asymm _ _ h3⟩)
  · exact Or.inr (Or.inl h)

theorem leTag_trans (a b c : Process) (h1 : leTag a b = true)
    (h2 : leTag b c = true) : leTag a c = true := by
  rw [leTag_iff] at h1 h2 ⊢
  rcases h1 with h1 | ⟨h1e, h1s⟩
  · rcases h2 with h2 | ⟨h2e, _⟩
    · exact Or.inl (h1.trans h2)
    · exact Or.inl (h2e ▸ h1)
  · rcases h2 with h2 | ⟨h2e, h2s⟩
    · exact Or.inl (h1e ▸ h2)
    · exact Or.inr ⟨h1e.trans h2e, strLt_false_trans _ _ _ h2s h1s⟩

/-- Unfolding of `order_queue` when the queue has a last element. -/
theorem order_queue_eq_of_getLast (q : List Process) (last : Process)
    (hl : q.getLast? = some last) :
    order_queue q =
      if tagStartsP last then
        match q.mapM tagSuffix with
        | none => none
        | some _ => some (insSort leSuffix q)
      else some (insSort leTag q) := by
  unfold order_queue
  rw [hl]

/-- `order_queue` returns a permutation of its input whenever it succeeds. -/
theorem order_queue_perm (q r : List Process) (h : order_queue q = some r) :
    r.Perm q := by
  unfold order_queue at h
  split at h
  · cases h
  · split at h
    · split at h
      · cases h
      · cases h
        exact insSort_perm leSuffix q
    · cases h
      exact insSort_perm leTag q

/-! ## FCFS lemmas -/

theorem fcfsExec_time : ∀ (l : List Process) (t : Int),
    (fcfsExec l t).2 = t + (l.map (fun p => p.pcb.bt)).sum
  | [], t => by simp [fcfsExec]
  | p :: ps, t => by
      simp only [fcfsExec, List.map_cons, List.sum_cons]
      rw [fcfsExec_time ps]
      omega

theorem fcfsExec_get : ∀ (l : List Process) (t : Int) (k : Nat),
    (fcfsExec l t).1.get? k = (l.get? k).map (fun p =>
      { p with pcb := { p.pcb with
          rt := t + ((l.take k).map (fun r => r.pcb.bt)).sum,
          wt := t + ((l.take k).map (fun r => r.pcb.bt)).sum - p.pcb.at_,
          ct := t + ((l.take k).map (fun r => r.pcb.bt)).sum + p.pcb.bt,
          tat := t + ((l.take k).map (fun r => r.pcb.bt)).sum + p.pcb.bt
            - p.pcb.at_ } })
  | [], t, k => by simp [fcfsExec]
  | p :: ps, t, 0 => by simp [fcfsExec]
  | p :: ps, t, k + 1 => by
      simp only [fcfsExec, List.get?_cons_succ, List.take_succ_cons,
        List.map_cons, List.sum_cons]
      rw [fcfsExec_get ps (t + p.pcb.bt) k]
      cases ps.get? k with
      | none => rfl
      | some r =>
          simp only [Option.map_some]
          have : t + p.pcb.bt + ((ps.take k).map (fun r => r.pcb.bt)).sum =
              t + (p.pcb.bt + ((ps.take k).map (fun r => r.pcb.bt)).sum) := by
            omega
          rw [this]

theorem fcfsExec_map_bt (l : List Process) (t : Int) :
    (fcfsExec l t).1.map (fun p => p.pcb.bt) = l.map (fun p => p.pcb.bt) := by
  induction l generalizing t with
  | nil => simp [fcfsExec]
  | cons p ps ih => simp [fcfsExec, ih]

theorem fcfsExec_map_te_done (l : List Process) (t : Int) :
    (fcfsExec l t).1.map (fun p => (p.pcb.te, p.pcb.done)) =
      l.map (fun p => (p.pcb.te, p.pcb.done)) := by
  induction l generalizing t with
  | nil => simp [fcfsExec]
  | cons p ps ih => simp [fcfsExec, ih]

theorem fcfsStart_eq (q sorted : List Process) (t : Int)
    (h : order_queue q = some sorted) :
    fcfsStart q t = some (fcfsExec sorted t) := by
  simp [fcfsStart, h]

/-! ## Claim theorems: FCFS and ordering -/

/-- C10: for the empty queue neither engine is a no-op returning the start
time: both `FCFS.start_processing` and `RoundRobin.start_processing` fail
while ordering the queue (`queue[-1]` on an empty list raises
`IndexError`), so a non-empty queue is an unstated precondition of both
public interfaces. -/
theorem engines_fail_on_empty_queue :
    ∀ (t : Int) (quantum fuel : Nat),
      fcfsStart [] t = none ∧ rrStart quantum fuel [] t = none := by
  intro t quantum fuel
  exact ⟨rfl, rfl⟩

/-- C2: a non-empty queue run under FCFS from start time `t0` executes the
(sorted) processes back to back with no idle-wait: the process dispatched
at clock `t` (the sum of `t0` and all earlier burst times) gets RT=t,
WT=t−AT, CT=t+BT, TAT=CT−AT, with no condition relating the clock to AT,
and the returned end time is `t0` plus the sum of all burst times in the
queue. -/
theorem fcfs_back_to_back (q out : List Process) (t0 tEnd : Int)
    (h : fcfsStart q t0 = some (out, tEnd)) :
    tEnd = t0 + (q.map (fun p => p.pcb.bt)).sum ∧
    ∀ (k : Nat) (p : Process), out.get? k = some p →
      p.pcb.rt = t0 + ((out.take k).map (fun r => r.pcb.bt)).sum ∧
      p.pcb.wt = p.pcb.rt - p.pcb.at_ ∧
      p.pcb.ct = p.pcb.rt + p.pcb.bt ∧
      p.pcb.tat = p.pcb.ct - p.pcb.at_ := by
  unfold fcfsStart at h
  cases ho : order_queue q with
  | none => rw [ho] at h; cases h
  | some sorted =>
      rw [ho] at h
      simp only [Option.map_some', Option.some.injEq] at h
      have hout : (fcfsExec sorted t0).1 = out := by rw [h]
      have htime : (fcfsExec sorted t0).2 = tEnd := by rw [h]
      have hbt : out.map (fun p => p.pcb.bt) = sorted.map (fun p => p.pcb.bt) := by
        rw [← hout, fcfsExec_map_bt]
      constructor
      · rw [← htime, fcfsExec_time]
        have hsum : (sorted.map (fun p => p.pcb.bt)).Perm
            (q.map (fun p => p.pcb.bt)) :=
          (order_queue_perm q sorted ho).map _
        rw [hsum.sum_eq]
      · intro k p hk
        rw [← hout, fcfsExec_get] at hk
        cases hsk : sorted.get? k with
        | none => rw [hsk] at hk; cases hk
        | some p₀ =>
            rw [hsk, Option.map_some', Option.some.injEq] at hk
            have htake : ((out.take k).map (fun r => r.pcb.bt)).sum =
                ((sorted.take k).map (fun r => r.pcb.bt)).sum := by
              rw [List.map_take, List.map_take, hbt]
            subst hk
            refine ⟨by rw [htake], rfl, rfl, rfl⟩

/-- Witness for C2 at the concrete queue `[{p1, AT=2, BT=3}]` from start
time 0 (the process arrives after the clock and still runs at once). -/
theorem fcfs_back_to_back_witness :
    (3 : Int) = 0 + (([mkP "p1" 2 3]).map (fun p => p.pcb.bt)).sum :=
  (fcfs_back_to_back [mkP "p1" 2 3]
    [⟨"p1", ⟨2, 3, 0, 3, -2, 0, 1, 0, false, 1, "1"⟩⟩] 0 3 (by decide)).1

/-- C3 counterexample: FCFS never writes TE or done.  Running the single
fresh process {p1, AT=0, BT=5} leaves (TE, BT, done) = (0, 5, false) after
`start_processing`, not TE=BT=5 and done=true as the claim states. -/
theorem fcfs_te_done_cex :
    (fcfsStart [mkP "p1" 0 5] 0).map
        (fun r => r.1.map (fun p => (p.pcb.te, p.pcb.bt, p.pcb.done))) =
      some [(0, 5, false)] ∧
    (((0 : Int), (5 : Int), false) ≠ ((5 : Int), (5 : Int), true)) := by
  exact ⟨by decide, by decide⟩

/-- C3 (amended): `FCFS._excecute_process` sets RT, WT, CT and TAT but
never writes TE or done, so after `start_processing` every process keeps
its initial TE=0 and done=false rather than ending with TE=BT and
done=true. -/
theorem fcfs_preserves_te_done (q out : List Process) (t0 tEnd : Int)
    (h : fcfsStart q t0 = some (out, tEnd))
    (hq : ∀ p ∈ q, p.pcb.te = 0 ∧ p.pcb.done = false) :
    ∀ p ∈ out, p.pcb.te = 0 ∧ p.pcb.done = false := by
  unfold fcfsStart at h
  cases ho : order_queue q with
  | none => rw [ho] at h; cases h
  | some sorted =>
      rw [ho] at h
      simp only [Option.map_some', Option.some.injEq] at h
      have hout : (fcfsExec sorted t0).1 = out := by rw [h]
      intro p hp
      have hmem : (p.pcb.te, p.pcb.done) ∈
          out.map (fun p => (p.pcb.te, p.pcb.done)) :=
        List.mem_map_of_mem _ hp
      rw [← hout, fcfsExec_map_te_done] at hmem
      obtain ⟨p₀, hp₀, heq⟩ := List.mem_map.1 hmem
      have hfresh := hq p₀ ((order_queue_perm q sorted ho).subset hp₀)
      have h1 : p₀.pcb.te = p.pcb.te := congrArg Prod.fst heq
      have h2 : p₀.pcb.done = p.pcb.done := congrArg Prod.snd heq
      exact ⟨h1 ▸ hfresh.1, h2 ▸ hfresh.2⟩

/-- Witness for C3 (amended) at the fresh queue `[{p1, AT=0, BT=5}]`. -/
theorem fcfs_preserves_te_done_witness :
    (⟨"p1", ⟨0, 5, 0, 5, 0, 0, 5, 0, false, 1, "1"⟩⟩ : Process).pcb.te = 0 ∧
    (⟨"p1", ⟨0, 5, 0, 5, 0, 0, 5, 0, false, 1, "1"⟩⟩ : Process).pcb.done =
      false :=
  fcfs_preserves_te_done [mkP "p1" 0 5]
    [⟨"p1", ⟨0, 5, 0, 5, 0, 0, 5, 0, false, 1, "1"⟩⟩] 0 5
    (by decide) (by decide)
    ⟨"p1", ⟨0, 5, 0, 5, 0, 0, 5, 0, false, 1, "1"⟩⟩ (by decide)

/-- C4 counterexample: the engines' tie-break test is "the LAST tag starts
with `p`", not "every tag is a letter+digits label".  In the queue
`[q2, q10]` (equal AT, both tags letter+digits) the claim demands the
integer-suffix order `[q2, q10]` — the spec-worded rule
`spec_order_queue` produces it — but the code's `order_queue` sorts
lexicographically (because the last tag `q10` does not start with `p`)
and returns `[q10, q2]`. -/
theorem order_queue_tiebreak_cex :
    ([mkP "q2" 0 1, mkP "q10" 0 1].all (fun p => isLetterDigits p.tag)) = true ∧
    spec_order_queue [mkP "q2" 0 1, mkP "q10" 0 1] =
      [mkP "q2" 0 1, mkP "q10" 0 1] ∧
    order_queue [mkP "q2" 0 1, mkP "q10" 0 1] =
      some [mkP "q10" 0 1, mkP "q2" 0 1] ∧
    ([mkP "q10" 0 1, mkP "q2" 0 1] : List Process) ≠
      [mkP "q2" 0 1, mkP "q10" 0 1] := by
  exact ⟨by decide, by decide, by decide, by decide⟩

/-- C4 (amended): both engines order a non-empty queue ascending by AT,
breaking ties by the integer suffix of the tag when the LAST element's tag
starts with `"p"` (raising a `ValueError` — modelled as `none` — if any
suffix fails to parse), and by tag lexicographic order otherwise; in both
success branches the result is a permutation of the queue sorted by the
respective key. -/
theorem order_queue_amended (q : List Process) (last : Process)
    (hl : q.getLast? = some last) :
    (tagStartsP last = true →
      (q.mapM tagSuffix = none → order_queue q = none) ∧
      ∀ ks, q.mapM tagSuffix = some ks →
        order_queue q = some (insSort leSuffix q) ∧
        (insSort leSuffix q).Perm q ∧
        (insSort leSuffix q).Pairwise (fun a b => leSuffix a b = true)) ∧
    (tagStartsP last = false →
      order_queue q = some (insSort leTag q) ∧
      (insSort leTag q).Perm q ∧
      (insSort leTag q).Pairwise (fun a b => leTag a b = true)) := by
  constructor
  · intro hp
    constructor
    · intro hm
      rw [order_queue_eq_of_getLast q last hl, if_pos hp, hm]
    · intro ks hm
      refine ⟨?_, insSort_perm _ _,
        insSort_pairwise _ leSuffix_total leSuffix_trans _⟩
      rw [order_queue_eq_of_getLast q last hl, if_pos hp, hm]
  · intro hp
    refine ⟨?_, insSort_perm _ _,
      insSort_pairwise _ leTag_total leTag_trans _⟩
    rw [order_queue_eq_of_getLast q last hl, if_neg (by simp [hp])]

/-- Witness for C4 (amended) at the queue `[p2, p1]` (last tag starts with
`p`, both suffixes numeric). -/
theorem order_queue_amended_witness :
    order_queue [mkP "p2" 0 1, mkP "p1" 0 2] =
      some (insSort leSuffix [mkP "p2" 0 1, mkP "p1" 0 2]) :=
  (((order_queue_amended [mkP "p2" 0 1, mkP "p1" 0 2] (mkP "p1" 0 2)
    (by decide)).1 (by decide)).2 [2, 1] (by decide)).1

/-! ## Round Robin lemmas -/

theorem execLoop_finish : ∀ (q : Nat) (t rem : Int), 1 ≤ rem →
    rem ≤ (q : Int) → execLoop q t rem = some (t + rem, true)
  | 0, t, rem, h1, h2 => by simp at h2; omega
  | k + 1, t, rem, h1, h2 => by
      simp only [execLoop]
      by_cases hr : rem - 1 = 0
      · have he : rem = 1 := by omega
        subst he
        simp
      · rw [if_neg hr]
        have hk : ¬k = 0 := by
          intro h0
          subst h0
          simp at h2
          omega
        rw [if_neg hk]
        have ih := execLoop_finish k (t + 1) (rem - 1) (by omega)
          (by push_cast at h2 ⊢; omega)
        rw [ih, show t + 1 + (rem - 1) = t + rem by omega]

theorem execLoop_preempt : ∀ (q : Nat) (t rem : Int), 1 ≤ q →
    (q : Int) < rem → execLoop q t rem = some (t + q, false)
  | 0, _, _, h1, _ => by omega
  | k + 1, t, rem, _, h2 => by
      simp only [execLoop]
      have hr : ¬rem - 1 = 0 := by push_cast at h2; omega
      rw [if_neg hr]
      by_cases hk : k = 0
      · subst hk
        simp
      · rw [if_neg hk]
        have ih := execLoop_preempt k (t + 1) (rem - 1)
          (by omega) (by push_cast at h2 ⊢; omega)
        rw [ih, show t + 1 + (k : Int) = t + (k + 1 : Nat) by push_cast; omega]

theorem execLoop_time : ∀ (q : Nat) (t rem t' : Int) (f : Bool),
    execLoop q t rem = some (t', f) → t < t'
  | 0, _, _, _, _, h => by cases h
  | k + 1, t, rem, t', f, h => by
      simp only [execLoop] at h
      by_cases hr : rem - 1 = 0
      · rw [if_pos hr] at h
        cases h
        omega
      · rw [if_neg hr] at h
        by_cases hk : k = 0
        · rw [if_pos hk] at h
          cases h
          omega
        · rw [if_neg hk] at h
          have := execLoop_time k (t + 1) (rem - 1) t' f h
          omega

theorem execLoop_isSome : ∀ (q : Nat) (t rem : Int), 1 ≤ q →
    ∃ r, execLoop q t rem = some r
  | 0, _, _, h => by omega
  | k + 1, t, rem, _ => by
      simp only [execLoop]
      by_cases hr : rem - 1 = 0
      · exact ⟨_, by rw [if_pos hr]⟩
      · rw [if_neg hr]
        by_cases hk : k = 0
        · exact ⟨_, by rw [if_pos hk]⟩
        · rw [if_neg hk]
          exact execLoop_isSome k (t + 1) (rem - 1) (by omega)

theorem execLoop_zero_none (t rem : Int) : execLoop 0 t rem = none := rfl

theorem findFromAux_sound : ∀ (l : List Process) (k j : Nat),
    findFromAux l k = some j → k ≤ j ∧
      ∃ p, l.get? (j - k) = some p ∧ p.pcb.done = false
  | [], _, _, h => by cases h
  | p :: ps, k, j, h => by
      simp only [findFromAux] at h
      by_cases hd : p.pcb.done = true
      · rw [if_pos hd] at h
        obtain ⟨h1, r, h2, h3⟩ := findFromAux_sound ps (k + 1) j h
        refine ⟨by omega, r, ?_, h3⟩
        rw [show j - k = (j - (k + 1)) + 1 by omega]
        simpa using h2
      · rw [if_neg hd] at h
        cases h
        rw [Bool.not_eq_true] at hd
        exact ⟨Nat.le_refl k, p, by simp, hd⟩

theorem findFromAux_none : ∀ (l : List Process) (k : Nat),
    findFromAux l k = none ↔ ∀ p ∈ l, p.pcb.done = true
  | [], k => by simp [findFromAux]
  | p :: ps, k => by
      simp only [findFromAux]
      by_cases hd : p.pcb.done = true
      · rw [if_pos hd, findFromAux_none ps (k + 1)]
        simp [hd]
      · rw [if_neg hd]
        simp
        intro h
        exact absurd h hd

theorem findFrom_sound (q : List Process) (k j : Nat)
    (h : findFrom q k = some j) :
    k ≤ j ∧ ∃ p, q.get? j = some p ∧ p.pcb.done = false := by
  obtain ⟨h1, p, h2, h3⟩ := findFromAux_sound (q.drop k) k j h
  refine ⟨h1, p, ?_, h3⟩
  rw [List.get?_drop] at h2
  rwa [show k + (j - k) = j by omega] at h2

/-- A successful `next_process` either performs the unconditional first
dispatch of `queue[0]` at the start time, or returns a live process. -/
theorem next_process_sound (s : RRState) (j : Nat)
    (h : next_process s = some j) :
    (s.time = s.initialTime ∧ j = 0 ∧ s.queue ≠ []) ∨
      ∃ p, s.queue.get? j = some p ∧ p.pcb.done = false := by
  unfold next_process at h
  by_cases ht : s.time = s.initialTime
  · rw [if_pos ht] at h
    by_cases he : s.queue.isEmpty
    · rw [if_pos he] at h
      cases h
    · rw [if_neg he] at h
      cases h
      exact Or.inl ⟨ht, rfl, by simpa [List.isEmpty_iff] using he⟩
  · rw [if_neg ht] at h
    cases hf : findFrom s.queue (s.currentIndex + 1) with
    | some i =>
        rw [hf] at h
        cases h
        exact Or.inr (findFrom_sound _ _ _ hf).2
    | none =>
        rw [hf] at h
        exact Or.inr (findFrom_sound _ _ _ h).2

/-- `next_process` returns `none` only when every process is done (or the
queue is empty). -/
theorem next_process_none (s : RRState) (h : next_process s = none) :
    ∀ p ∈ s.queue, p.pcb.done = true := by
  unfold next_process at h
  by_cases ht : s.time = s.initialTime
  · rw [if_pos ht] at h
    by_cases he : s.queue.isEmpty
    · intro p hp
      rw [List.isEmpty_iff] at he
      rw [he] at hp
      cases hp
    · rw [if_neg he] at h
      cases h
  · rw [if_neg ht] at h
    cases hf : findFrom s.queue (s.currentIndex + 1) with
    | some i => rw [hf] at h; cases h
    | none =>
        rw [hf] at h
        have := (findFromAux_none (s.queue.drop 0) 0).1 h
        intro p hp
        exact this p (by simpa using hp)

/-- `excecute_process` when the index is out of range (`__queue.index`
cannot actually fail for an index produced by `__next_process`). -/
theorem excecute_process_oob (quantum : Nat) (s : RRState) (j : Nat)
    (hj : s.queue.get? j = none) : excecute_process quantum s j = none := by
  unfold excecute_process
  rw [hj]

theorem sliceResult_time (s : RRState) (j : Nat) (p : Process) (t' : Int)
    (finished : Bool) : (sliceResult s j p t' finished).time = t' := rfl

theorem sliceResult_initialTime (s : RRState) (j : Nat) (p : Process)
    (t' : Int) (finished : Bool) :
    (sliceResult s j p t' finished).initialTime = s.initialTime := rfl

theorem sliceResult_queue (s : RRState) (j : Nat) (p : Process) (t' : Int)
    (finished : Bool) :
    (sliceResult s j p t' finished).queue =
      s.queue.set j { p with pcb := slicePCB p.pcb s.time t' finished } := rfl

theorem sliceResult_currentIndex (s : RRState) (j : Nat) (p : Process)
    (t' : Int) (finished : Bool) :
    (sliceResult s j p t' finished).currentIndex = j := rfl

/-- Characterisation of `excecute_process` at a valid index, by the
outcome of the tick loop. -/
theorem excecute_process_eq (quantum : Nat) (s : RRState) (j : Nat)
    (p : Process) (hj : s.queue.get? j = some p) :
    excecute_process quantum s j =
      match execLoop quantum s.time (state_restore p.pcb) with
      | none => none
      | some (t', finished) => some (sliceResult s j p t' finished) := by
  cases hl : execLoop quantum s.time (state_restore p.pcb) with
  | none => simp only [excecute_process, hj, hl]
  | some r =>
      cases r with
      | mk t' finished =>
          simp only [excecute_process, hj, hl]
          cases finished <;>
            simp [sliceResult, slicePCB]

/-- Closed form of a slice that finishes its process: the remaining burst
fits in the quantum, the clock advances by exactly that remaining burst,
and the PCB goes through `state_save` then `mark_process_done`. -/
theorem step_finish (quantum : Nat) (s : RRState) (j : Nat) (p : Process)
    (hj : s.queue.get? j = some p)
    (h1 : 1 ≤ p.pcb.bt - p.pcb.te)
    (h2 : p.pcb.bt - p.pcb.te ≤ (quantum : Int)) :
    excecute_process quantum s j =
      some (sliceResult s j p (s.time + (p.pcb.bt - p.pcb.te)) true) := by
  rw [excecute_process_eq quantum s j p hj,
    execLoop_finish quantum s.time (state_restore p.pcb) h1 h2]
  rfl

/-- Closed form of a slice that exhausts the quantum: the remaining burst
exceeds the quantum, the clock advances by the full quantum, and the PCB
only goes through `state_save`. -/
theorem step_preempt (quantum : Nat) (s : RRState) (j : Nat) (p : Process)
    (hj : s.queue.get? j = some p)
    (h1 : 1 ≤ quantum)
    (h2 : (quantum : Int) < p.pcb.bt - p.pcb.te) :
    excecute_process quantum s j =
      some (sliceResult s j p (s.time + quantum) false) := by
  rw [excecute_process_eq quantum s j p hj,
    execLoop_preempt quantum s.time (state_restore p.pcb) h1 h2]

/-- A successful slice implies a positive quantum (a zero quantum makes
the tick loop fall through, i.e. the Python run never terminates). -/
theorem excecute_quantum_pos (quantum : Nat) (s : RRState) (j : Nat)
    (s' : RRState) (h : excecute_process quantum s j = some s') :
    1 ≤ quantum := by
  by_contra hq
  have h0 : quantum = 0 := by omega
  subst h0
  cases hj : s.queue.get? j with
  | none => rw [excecute_process_oob 0 s j hj] at h; cases h
  | some p =>
      rw [excecute_process_eq 0 s j p hj,
        execLoop_zero_none s.time (state_restore p.pcb)] at h
      cases h

/-- Any successful slice strictly advances the clock and leaves
`initialTime` unchanged. -/
theorem excecute_time (quantum : Nat) (s : RRState) (j : Nat)
    (s' : RRState) (h : excecute_process quantum s j = some s') :
    s.time < s'.time ∧ s'.initialTime = s.initialTime := by
  cases hj : s.queue.get? j with
  | none => rw [excecute_process_oob quantum s j hj] at h; cases h
  | some p =>
      rw [excecute_process_eq quantum s j p hj] at h
      cases hl : execLoop quantum s.time (state_restore p.pcb) with
      | none => rw [hl] at h; cases h
      | some r =>
          cases r with
          | mk t' finished =>
              rw [hl] at h
              cases h
              rw [sliceResult_time, sliceResult_initialTime]
              exact ⟨execLoop_time _ _ _ t' finished hl, rfl⟩

theorem slicePCB_te (pcb : PCB) (started t' : Int) (f : Bool) :
    (slicePCB pcb started t' f).te = pcb.te + (t' - started) := by
  cases f <;> rfl

theorem slicePCB_bt (pcb : PCB) (started t' : Int) (f : Bool) :
    (slicePCB pcb started t' f).bt = pcb.bt := by
  cases f <;> rfl

theorem slicePCB_at (pcb : PCB) (started t' : Int) (f : Bool) :
    (slicePCB pcb started t' f).at_ = pcb.at_ := by
  cases f <;> rfl

theorem slicePCB_done (pcb : PCB) (started t' : Int) (f : Bool) :
    (slicePCB pcb started t' f).done = (f || pcb.done) := by
  cases f <;> rfl

theorem slicePCB_rt (pcb : PCB) (started t' : Int) (f : Bool) :
    (slicePCB pcb started t' f).rt =
      if pcb.rt < 0 then started else pcb.rt := by
  cases f <;> rfl

theorem slicePCB_ct_true (pcb : PCB) (started t' : Int) :
    (slicePCB pcb started t' true).ct = t' := rfl

theorem slicePCB_ct_false (pcb : PCB) (started t' : Int) :
    (slicePCB pcb started t' false).ct = pcb.ct := rfl

/-- Index bound from a successful `get?`. -/
theorem get?_lt_length (l : List Process) (n : Nat) (a : Process)
    (h : l.get? n = some a) : n < l.length := by
  by_contra hn
  rw [List.get?_len_le (Nat.le_of_not_lt hn)] at h
  cases h

/-- C6: under Round Robin (positive quantum, live process with
`pcbInv`), one dispatch of the process at index `j` strictly increases
its TE; the new TE never exceeds BT; after the dispatch the process is
done exactly when its TE has reached BT (TE is written together with the
done flag); every other queue entry is untouched (so a process's TE
changes only at its own dispatches); and `pcbInv` is preserved for the
whole queue. -/
theorem rr_te_strict_progress (quantum : Nat) (s s' : RRState) (j : Nat)
    (p p' : Process)
    (hinv : ∀ r ∈ s.queue, pcbInv r)
    (hj : s.queue.get? j = some p) (hnd : p.pcb.done = false)
    (h : excecute_process quantum s j = some s')
    (hj' : s'.queue.get? j = some p') :
    p.pcb.te < p'.pcb.te ∧
    p'.pcb.te ≤ p'.pcb.bt ∧ p'.pcb.bt = p.pcb.bt ∧
    (p'.pcb.done = true ↔ p'.pcb.te = p'.pcb.bt) ∧
    (∀ k r, k ≠ j → s.queue.get? k = some r → s'.queue.get? k = some r) ∧
    (∀ r ∈ s'.queue, pcbInv r) := by
  have hq : 1 ≤ quantum := excecute_quantum_pos quantum s j s' h
  have hpmem : p ∈ s.queue := List.get?_mem hj
  obtain ⟨hte0, _, hlive⟩ := hinv p hpmem
  have hlt : p.pcb.te < p.pcb.bt := hlive hnd
  have hjlen : j < s.queue.length := get?_lt_length s.queue j p hj
  by_cases hc : p.pcb.bt - p.pcb.te ≤ (quantum : Int)
  · rw [step_finish quantum s j p hj (by omega) hc] at h
    have hs' := Option.some.inj h
    subst hs'
    rw [sliceResult_queue, List.get?_set_eq_of_lt _ hjlen] at hj'
    have hp' := Option.some.inj hj'
    subst hp'
    refine ⟨?_, ?_, slicePCB_bt _ _ _ _, ?_, ?_, ?_⟩
    · rw [slicePCB_te]; omega
    · rw [slicePCB_te, slicePCB_bt]; omega
    · rw [slicePCB_te, slicePCB_bt, slicePCB_done]
      constructor
      · intro _; omega
      · intro _; rfl
    · intro k r hk hr
      rw [sliceResult_queue, List.get?_set_ne _ _ (fun he => hk he.symm)]
      exact hr
    · intro r hr
      rw [sliceResult_queue] at hr
      rcases List.mem_or_eq_of_mem_set hr with hr | hr
      · exact hinv r hr
      · subst hr
        refine ⟨?_, ?_, ?_⟩
        · rw [slicePCB_te]; omega
        · intro _; rw [slicePCB_te, slicePCB_bt]; omega
        · intro hf; rw [slicePCB_done] at hf; cases hf
  · rw [step_preempt quantum s j p hj hq (by omega)] at h
    have hs' := Option.some.inj h
    subst hs'
    rw [sliceResult_queue, List.get?_set_eq_of_lt _ hjlen] at hj'
    have hp' := Option.some.inj hj'
    subst hp'
    refine ⟨?_, ?_, slicePCB_bt _ _ _ _, ?_, ?_, ?_⟩
    · rw [slicePCB_te]; omega
    · rw [slicePCB_te, slicePCB_bt]; omega
    · rw [slicePCB_te, slicePCB_bt, slicePCB_done, hnd]
      simp only [Bool.or_false]
      constructor
      · intro hf; cases hf
      · intro hf; omega
    · intro k r hk hr
      rw [sliceResult_queue, List.get?_set_ne _ _ (fun he => hk he.symm)]
      exact hr
    · intro r hr
      rw [sliceResult_queue] at hr
      rcases List.mem_or_eq_of_mem_set hr with hr | hr
      · exact hinv r hr
      · subst hr
        refine ⟨?_, ?_, ?_⟩
        · rw [slicePCB_te]; omega
        · intro hf; rw [slicePCB_done, hnd] at hf; cases hf
        · intro _; rw [slicePCB_te, slicePCB_bt]; omega

/-- Witness for C6: quantum 2 on the fresh process {p1, AT=0, BT=4} at
index 0 from time 0 (a preempted slice: TE goes from 0 to 2). -/
theorem rr_te_strict_progress_witness :
    (mkP "p1" 0 4).pcb.te <
      (⟨"p1", ⟨0, 4, 2, 0, 0, 0, 0, 2, false, 1, "1"⟩⟩ : Process).pcb.te :=
  (rr_te_strict_progress 2
    ⟨[mkP "p1" 0 4], 0, 0, 0⟩
    ⟨[⟨"p1", ⟨0, 4, 2, 0, 0, 0, 0, 2, false, 1, "1"⟩⟩], 2, 0, 0⟩
    0 (mkP "p1" 0 4) ⟨"p1", ⟨0, 4, 2, 0, 0, 0, 0, 2, false, 1, "1"⟩⟩
    (fun r hr => by
      rw [List.mem_singleton] at hr
      subst hr
      exact ⟨by decide, by decide, by decide⟩)
    (by decide) (by decide) (by decide) (by decide)).1

/-- A dispatched index always carries a live process (using the start-time
clause of `RInv` for the unconditional first dispatch). -/
theorem dispatched_live (s : RRState) (j : Nat) (hinv : RInv s)
    (hn : next_process s = some j) :
    ∃ p, s.queue.get? j = some p ∧ p.pcb.done = false := by
  obtain ⟨_, _, hstart, _⟩ := hinv
  rcases next_process_sound s j hn with ⟨ht, hj0, hne⟩ | hex
  · subst hj0
    cases hq : s.queue with
    | nil => exact absurd hq hne
    | cons a l =>
        refine ⟨a, by simp [hq], hstart ht a (by simp [hq])⟩
  · exact hex

/-- Projection of a rebuilt process. -/
theorem pcb_mk (tag : String) (pcb : PCB) :
    (Process.mk tag pcb).pcb = pcb := rfl

/-- One successful dispatch preserves `RInv`. -/
theorem RInv_step (quantum : Nat) (s s' : RRState) (j : Nat)
    (hinv : RInv s) (hn : next_process s = some j)
    (h : excecute_process quantum s j = some s') : RInv s' := by
  obtain ⟨p, hj, hnd⟩ := dispatched_live s j hinv hn
  obtain ⟨h0, hle, hstart, hall⟩ := hinv
  obtain ⟨hte0, _, hlive⟩ := (hall p (List.get?_mem hj)).1
  have hlt : p.pcb.te < p.pcb.bt := hlive hnd
  have hrtte := (hall p (List.get?_mem hj)).2.1
  have hrtub := (hall p (List.get?_mem hj)).2.2.1
  have hq : 1 ≤ quantum := excecute_quantum_pos quantum s j s' h
  have main : ∀ (t' : Int) (fin : Bool), s.time < t' →
      (fin = true → p.pcb.te + (t' - s.time) = p.pcb.bt) →
      (fin = false → p.pcb.te + (t' - s.time) < p.pcb.bt) →
      RInv (sliceResult s j p t' fin) := by
    intro t' fin hadv hfin hpre
    refine ⟨h0, ?_, ?_, ?_⟩
    · rw [sliceResult_time, sliceResult_initialTime]
      omega
    · rw [sliceResult_time, sliceResult_initialTime]
      intro he
      exfalso
      omega
    · intro r hr
      rw [sliceResult_queue] at hr
      rcases List.mem_or_eq_of_mem_set hr with hr | hr
      · obtain ⟨hi, b1, b2, b3⟩ := hall r hr
        refine ⟨hi, b1, ?_, b3⟩
        intro hrt
        have := b2 hrt
        rw [sliceResult_time]
        omega
      · subst hr
        cases fin with
        | true =>
            have hfe := hfin rfl
            refine ⟨⟨?_, ?_, ?_⟩, ?_, ?_, ?_⟩ <;>
              simp only [pcb_mk, sliceResult_time, slicePCB_te, slicePCB_bt,
                slicePCB_done, slicePCB_rt, slicePCB_ct_true, Bool.true_or]
            · omega
            · intro _
              omega
            · intro hd
              cases hd
            · intro hc
              by_cases hrc : p.pcb.rt < 0
              · rw [if_pos hrc] at hc
                omega
              · rw [if_neg hrc] at hc
                omega
            · intro hge
              by_cases hrc : p.pcb.rt < 0
              · rw [if_pos hrc]
                have := hrtte hrc
                omega
              · rw [if_neg hrc]
                have := hrtub (by omega)
                omega
            · intro _
              by_cases hrc : p.pcb.rt < 0
              · rw [if_pos hrc]
                have := hrtte hrc
                omega
              · rw [if_neg hrc]
                have := hrtub (by omega)
                omega
        | false =>
            have hfe := hpre rfl
            refine ⟨⟨?_, ?_, ?_⟩, ?_, ?_, ?_⟩ <;>
              simp only [pcb_mk, sliceResult_time, slicePCB_te, slicePCB_bt,
                slicePCB_done, slicePCB_rt, slicePCB_ct_false, Bool.false_or]
            · omega
            · intro hd
              rw [hnd] at hd
              cases hd
            · intro _
              omega
            · intro hc
              by_cases hrc : p.pcb.rt < 0
              · rw [if_pos hrc] at hc
                omega
              · rw [if_neg hrc] at hc
                omega
            · intro hge
              by_cases hrc : p.pcb.rt < 0
              · rw [if_pos hrc]
                have := hrtte hrc
                omega
              · rw [if_neg hrc]
                have := hrtub (by omega)
                omega
            · intro hd
              rw [hnd] at hd
              cases hd
  by_cases hc : p.pcb.bt - p.pcb.te ≤ (quantum : Int)
  · rw [step_finish quantum s j p hj (by omega) hc] at h
    have hs' := Option.some.inj h
    subst hs'
    exact main _ _ (by omega) (fun _ => by omega) (fun hf => by cases hf)
  · rw [step_preempt quantum s j p hj hq (by omega)] at h
    have hs' := Option.some.inj h
    subst hs'
    exact main _ _ (by omega) (fun hf => by cases hf) (fun _ => by omega)

/-- The dispatch loop preserves `RInv`. -/
theorem RInv_loop (quantum : Nat) : ∀ (fuel : Nat) (s s' : RRState),
    RInv s → rrLoop quantum fuel s = some s' → RInv s'
  | 0, s, s', _, h => by cases h
  | fuel + 1, s, s', hinv, h => by
      cases hn : next_process s with
      | none =>
          simp only [rrLoop, hn] at h
          have := Option.some.inj h
          subst this
          exact hinv
      | some j =>
          cases he : excecute_process quantum s j with
          | none =>
              simp only [rrLoop, hn, he] at h
              cases h
          | some s₂ =>
              simp only [rrLoop, hn, he] at h
              exact RInv_loop quantum fuel s₂ s'
                (RInv_step quantum s s₂ j hinv hn he) h

/-- C9: for every process executed by either policy, the recorded
response time satisfies RT ≤ CT − BT.  Under FCFS this holds with
equality for every process of a successful run; under Round Robin (run
from a non-negative start time on a fresh queue of positive-burst
processes, as the MLQ dispatcher does) it holds for every process that
completed. -/
theorem rt_le_ct_sub_bt :
    (∀ (q out : List Process) (t0 tEnd : Int),
      fcfsStart q t0 = some (out, tEnd) →
      ∀ p ∈ out, p.pcb.rt ≤ p.pcb.ct - p.pcb.bt) ∧
    (∀ (quantum fuel : Nat) (q out : List Process) (t tEnd : Int),
      0 ≤ t →
      (∀ p ∈ q, freshPCB p ∧ 1 ≤ p.pcb.bt) →
      rrStart quantum fuel q t = some (out, tEnd) →
      ∀ p ∈ out, p.pcb.done = true →
        p.pcb.rt ≤ p.pcb.ct - p.pcb.bt) := by
  constructor
  · intro q out t0 tEnd h p hp
    unfold fcfsStart at h
    cases ho : order_queue q with
    | none => rw [ho] at h; cases h
    | some sorted =>
        rw [ho] at h
        simp only [Option.map_some', Option.some.injEq] at h
        have hout : (fcfsExec sorted t0).1 = out := by rw [h]
        obtain ⟨k, hk⟩ := List.mem_iff_get?.1 hp
        rw [← hout, fcfsExec_get] at hk
        cases hsk : sorted.get? k with
        | none => rw [hsk] at hk; cases hk
        | some p₀ =>
            rw [hsk, Option.map_some', Option.some.injEq] at hk
            subst hk
            simp
  · intro quantum fuel q out t tEnd ht hfresh h p hp hdone
    cases ho : order_queue q with
    | none =>
        simp only [rrStart, ho] at h
        cases h
    | some sorted =>
        cases hl : rrLoop quantum fuel (⟨sorted, t, t, 0⟩ : RRState) with
        | none =>
            simp only [rrStart, ho, hl] at h
            cases h
        | some sf =>
            simp only [rrStart, ho, hl, Option.some.injEq] at h
            have hout : sf.queue = out := congrArg Prod.fst h
            have hperm := order_queue_perm q sorted ho
            have hinv0 : RInv (⟨sorted, t, t, 0⟩ : RRState) := by
              refine ⟨ht, le_refl t, ?_, ?_⟩
              · intro _ r hr
                exact ((hfresh r (hperm.subset hr)).1).2.2
              · intro r hr
                obtain ⟨⟨hte, hrt, hdn⟩, hbt⟩ := hfresh r (hperm.subset hr)
                refine ⟨⟨by omega, ?_, ?_⟩, fun _ => hte, ?_, ?_⟩
                · intro hd
                  rw [hdn] at hd
                  cases hd
                · intro _
                  omega
                · intro hge
                  omega
                · intro hd
                  rw [hdn] at hd
                  cases hd
            have hinvf := RInv_loop quantum fuel _ sf hinv0 hl
            refine (hinvf.2.2.2 p ?_).2.2.2 hdone
            rw [hout]
            exact hp

/-- Witness for C9 at a concrete FCFS run and a concrete Round Robin run
(quantum 3, single fresh process {p1, AT=0, BT=2} from time 0). -/
theorem rt_le_ct_sub_bt_witness :
    (⟨"p1", ⟨0, 2, 2, 2, 0, 0, 2, 2, true, 1, "1"⟩⟩ : Process).pcb.rt ≤
      (⟨"p1", ⟨0, 2, 2, 2, 0, 0, 2, 2, true, 1, "1"⟩⟩ : Process).pcb.ct -
        (⟨"p1", ⟨0, 2, 2, 2, 0, 0, 2, 2, true, 1, "1"⟩⟩ : Process).pcb.bt :=
  rt_le_ct_sub_bt.2 3 5 [mkP "p1" 0 2]
    [⟨"p1", ⟨0, 2, 2, 2, 0, 0, 2, 2, true, 1, "1"⟩⟩] 0 2
    (by decide)
    (fun r hr => by
      rw [List.mem_singleton] at hr
      subst hr
      exact ⟨⟨rfl, by decide, rfl⟩, by decide⟩)
    (by decide)
    ⟨"p1", ⟨0, 2, 2, 2, 0, 0, 2, 2, true, 1, "1"⟩⟩ (by decide) (by decide)

theorem totalRem_cons (p : Process) (l : List Process) :
    totalRem (p :: l) = (p.pcb.bt - p.pcb.te).toNat + totalRem l := by
  simp [totalRem]

theorem totalRem_set : ∀ (l : List Process) (j : Nat) (p x : Process),
    l.get? j = some p →
    totalRem (l.set j x) + (p.pcb.bt - p.pcb.te).toNat =
      totalRem l + (x.pcb.bt - x.pcb.te).toNat
  | [], _, _, _, h => by cases h
  | a :: l, 0, p, x, h => by
      have ha : a = p := Option.some.inj h
      show totalRem (x :: l) + (p.pcb.bt - p.pcb.te).toNat =
        totalRem (a :: l) + (x.pcb.bt - x.pcb.te).toNat
      rw [totalRem_cons, totalRem_cons, ha]
      omega
  | a :: l, j + 1, p, x, h => by
      have hrec := totalRem_set l j p x (by simpa using h)
      show totalRem (a :: l.set j x) + (p.pcb.bt - p.pcb.te).toNat =
        totalRem (a :: l) + (x.pcb.bt - x.pcb.te).toNat
      rw [totalRem_cons, totalRem_cons]
      omega

/-- With a positive quantum, the dispatch loop terminates: each slice
strictly decreases `totalRem`, so fuel exceeding the initial total
remaining burst suffices for the run to return. -/
theorem rrLoop_terminates (quantum : Nat) (hq : 1 ≤ quantum) :
    ∀ (fuel : Nat) (s : RRState), RInv s → totalRem s.queue < fuel →
      ∃ s', rrLoop quantum fuel s = some s'
  | 0, _, _, hf => absurd hf (by omega)
  | fuel + 1, s, hinv, hf => by
      cases hn : next_process s with
      | none => exact ⟨s, by simp only [rrLoop, hn]⟩
      | some j =>
          obtain ⟨p, hj, hnd⟩ := dispatched_live s j hinv hn
          obtain ⟨hte0, _, hlive⟩ :=
            (hinv.2.2.2 p (List.get?_mem hj)).1
          have hlt : p.pcb.te < p.pcb.bt := hlive hnd
          by_cases hc : p.pcb.bt - p.pcb.te ≤ (quantum : Int)
          · have hex := step_finish quantum s j p hj (by omega) hc
            have hinv' := RInv_step quantum s _ j hinv hn hex
            have hdec : totalRem (sliceResult s j p
                (s.time + (p.pcb.bt - p.pcb.te)) true).queue <
                totalRem s.queue := by
              rw [sliceResult_queue]
              have heq := totalRem_set s.queue j p { p with pcb := slicePCB p.pcb s.time (s.time + (p.pcb.bt - p.pcb.te)) true } hj
              rw [pcb_mk, slicePCB_bt, slicePCB_te] at heq
              omega
            obtain ⟨s', hs'⟩ := rrLoop_terminates quantum hq fuel _
              hinv' (by omega)
            exact ⟨s', by simp only [rrLoop, hn, hex, hs']⟩
          · have hex := step_preempt quantum s j p hj hq (by omega)
            have hinv' := RInv_step quantum s _ j hinv hn hex
            have hdec : totalRem (sliceResult s j p
                (s.time + quantum) false).queue < totalRem s.queue := by
              rw [sliceResult_queue]
              have heq := totalRem_set s.queue j p { p with pcb := slicePCB p.pcb s.time (s.time + quantum) false } hj
              rw [pcb_mk, slicePCB_bt, slicePCB_te] at heq
              omega
            obtain ⟨s', hs'⟩ := rrLoop_terminates quantum hq fuel _
              hinv' (by omega)
            exact ⟨s', by simp only [rrLoop, hn, hex, hs']⟩

/-- C5 (spec-modelled: `process.py`/`Pcb.py` are not in `src/`, so the
constructor is `mkProcess`, modelled from spec §7): a descriptor with
BT ≤ 0 is rejected at construction, every constructed process has BT > 0,
and on a queue of fresh positive-BT processes a positive-quantum Round
Robin run cannot loop forever: fuel `rrFuel` (total burst + 1) already
makes the dispatch loop return. -/
theorem bt_rejected_at_construction :
    (∀ (tag : String) (a b : Int) (qu : Nat) (pr : String),
      b ≤ 0 → mkProcess tag a b qu pr = none) ∧
    (∀ (tag : String) (a b : Int) (qu : Nat) (pr : String) (p : Process),
      mkProcess tag a b qu pr = some p → 0 < p.pcb.bt) ∧
    (∀ (quantum : Nat) (q sorted : List Process) (t : Int),
      1 ≤ quantum → 0 ≤ t →
      (∀ p ∈ q, freshPCB p ∧ 1 ≤ p.pcb.bt) →
      order_queue q = some sorted →
      ∃ r, rrStart quantum (rrFuel q) q t = some r) := by
  refine ⟨?_, ?_, ?_⟩
  · intro tag a b qu pr hb
    unfold mkProcess
    rw [if_pos hb]
  · intro tag a b qu pr p h
    unfold mkProcess at h
    by_cases hb : b ≤ 0
    · rw [if_pos hb] at h
      cases h
    · rw [if_neg hb] at h
      have := Option.some.inj h
      subst this
      simp only [initPCB]
      omega
  · intro quantum q sorted t hq ht hfresh ho
    have hperm := order_queue_perm q sorted ho
    have hfuel : totalRem sorted < rrFuel q := by
      have hmap : sorted.map (fun p => (p.pcb.bt - p.pcb.te).toNat) =
          sorted.map (fun p => p.pcb.bt.toNat) := by
        apply List.map_congr_left
        intro r hr
        rw [((hfresh r (hperm.subset hr)).1).1]
        simp
      have hpermmap : (sorted.map (fun p => p.pcb.bt.toNat)).Perm
          (q.map (fun p => p.pcb.bt.toNat)) := hperm.map _
      unfold totalRem rrFuel
      rw [hmap, hpermmap.sum_eq]
      omega
    have hinv0 : RInv (⟨sorted, t, t, 0⟩ : RRState) := by
      refine ⟨ht, le_refl t, ?_, ?_⟩
      · intro _ r hr
        exact ((hfresh r (hperm.subset hr)).1).2.2
      · intro r hr
        obtain ⟨⟨hte, hrt, hdn⟩, hbt⟩ := hfresh r (hperm.subset hr)
        refine ⟨⟨by omega, ?_, ?_⟩, fun _ => hte, ?_, ?_⟩
        · intro hd
          rw [hdn] at hd
          cases hd
        · intro _
          omega
        · intro hge
          omega
        · intro hd
          rw [hdn] at hd
          cases hd
    obtain ⟨s', hs'⟩ := rrLoop_terminates quantum hq (rrFuel q)
      (⟨sorted, t, t, 0⟩ : RRState) hinv0 hfuel
    exact ⟨(s'.queue, s'.time), by simp only [rrStart, ho, hs']⟩

/-- Witness for C5: a BT=−3 descriptor is rejected, and a concrete
RR(2) run on the fresh queue `[{p1, AT=0, BT=2}]` returns. -/
theorem bt_rejected_at_construction_witness :
    mkProcess "p1" 0 (-3) 1 "1" = none ∧
    ∃ r, rrStart 2 (rrFuel [mkP "p1" 0 2]) [mkP "p1" 0 2] 0 = some r :=
  ⟨bt_rejected_at_construction.1 "p1" 0 (-3) 1 "1" (by decide),
   bt_rejected_at_construction.2.2 2 [mkP "p1" 0 2] [mkP "p1" 0 2] 0
     (by decide) (by decide)
     (fun r hr => by
       rw [List.mem_singleton] at hr
       subst hr
       exact ⟨⟨rfl, by decide, rfl⟩, by decide⟩)
     (by decide)⟩

/-! ## MLQ lemmas -/

theorem rrLoop_time_mono (quantum : Nat) : ∀ (fuel : Nat) (s s' : RRState),
    rrLoop quantum fuel s = some s' → s.time ≤ s'.time
  | 0, _, _, h => by cases h
  | fuel + 1, s, s', h => by
      cases hn : next_process s with
      | none =>
          simp only [rrLoop, hn] at h
          have := Option.some.inj h
          subst this
          exact le_refl _
      | some j =>
          cases he : excecute_process quantum s j with
          | none =>
              simp only [rrLoop, hn, he] at h
              cases h
          | some s₂ =>
              simp only [rrLoop, hn, he] at h
              have h1 := (excecute_time quantum s j s₂ he).1
              have h2 := rrLoop_time_mono quantum fuel s₂ s' h
              omega

theorem rrStart_time_mono (quantum fuel : Nat) (q out : List Process)
    (t t' : Int) (h : rrStart quantum fuel q t = some (out, t')) :
    t ≤ t' := by
  cases ho : order_queue q with
  | none =>
      simp only [rrStart, ho] at h
      cases h
  | some sorted =>
      cases hl : rrLoop quantum fuel (⟨sorted, t, t, 0⟩ : RRState) with
      | none =>
          simp only [rrStart, ho, hl] at h
          cases h
      | some sf =>
          simp only [rrStart, ho, hl, Option.some.injEq] at h
          have hmono : t ≤ sf.time := rrLoop_time_mono quantum fuel _ sf hl
          have ht' : sf.time = t' := congrArg Prod.snd h
          omega

theorem fcfsStart_time_mono (q out : List Process) (t t' : Int)
    (hbt : ∀ p ∈ q, 0 ≤ p.pcb.bt)
    (h : fcfsStart q t = some (out, t')) : t ≤ t' := by
  unfold fcfsStart at h
  cases ho : order_queue q with
  | none =>
      rw [ho] at h
      cases h
  | some sorted =>
      rw [ho] at h
      simp only [Option.map_some', Option.some.injEq] at h
      have ht' : (fcfsExec sorted t).2 = t' := congrArg Prod.snd h
      rw [fcfsExec_time] at ht'
      have hsum : 0 ≤ (sorted.map (fun p => p.pcb.bt)).sum := by
        apply List.sum_nonneg
        intro x hx
        obtain ⟨r, hr, hrx⟩ := List.mem_map.1 hx
        exact hrx ▸ hbt r ((order_queue_perm q sorted ho).subset hr)
      omega

theorem mlqStep_time_mono (i : Nat) (q q' : List Process) (t t' : Int)
    (hbt : ∀ p ∈ q, 0 ≤ p.pcb.bt)
    (h : mlqStep i q t = some (q', t')) : t ≤ t' := by
  unfold mlqStep at h
  by_cases hl : q.length > 0
  · rw [if_pos hl] at h
    by_cases h0 : i = 0
    · rw [if_pos h0] at h
      exact rrStart_time_mono 3 _ q q' t t' h
    · rw [if_neg h0] at h
      by_cases h1 : i = 1
      · rw [if_pos h1] at h
        exact rrStart_time_mono 5 _ q q' t t' h
      · rw [if_neg h1] at h
        by_cases h2 : i = 2
        · rw [if_pos h2] at h
          exact fcfsStart_time_mono q q' t t' hbt h
        · rw [if_neg h2] at h
          exact le_of_eq (congrArg Prod.snd (Option.some.inj h))
  · rw [if_neg hl] at h
    exact le_of_eq (congrArg Prod.snd (Option.some.inj h))

theorem mlqRunFrom_time_mono : ∀ (qs : List (List Process)) (i : Nat)
    (t t' : Int) (qs' : List (List Process)),
    (∀ q ∈ qs, ∀ p ∈ q, 0 ≤ p.pcb.bt) →
    mlqRunFrom i qs t = some (qs', t') → t ≤ t'
  | [], i, t, t', qs', _, h => by
      simp only [mlqRunFrom, Option.some.injEq] at h
      exact le_of_eq (congrArg Prod.snd h)
  | q :: rest, i, t, t', qs', hbt, h => by
      cases h1 : mlqStep i q t with
      | none =>
          simp only [mlqRunFrom, h1] at h
          cases h
      | some r1 =>
          cases r1 with
          | mk q1 t1 =>
              cases h2 : mlqRunFrom (i + 1) rest t1 with
              | none =>
                  simp only [mlqRunFrom, h1, h2] at h
                  cases h
              | some r2 =>
                  cases r2 with
                  | mk qs2 t2 =>
                      simp only [mlqRunFrom, h1, h2,
                        Option.some.injEq] at h
                      have ha := mlqStep_time_mono i q q1 t t1
                        (hbt q (List.mem_cons_self q rest)) h1
                      have hb := mlqRunFrom_time_mono rest (i + 1) t1 t2
                        qs2 (fun r hr => hbt r (List.mem_cons_of_mem q hr))
                        h2
                      have hc : t2 = t' := congrArg Prod.snd h
                      omega

/-- C8: the MLQ dispatcher runs queues in ascending index order on one
shared clock: running queue `i` from clock `t` to end time `t1` continues
with the remaining queues started exactly at `t1` (queue N's end time is
queue N+1's start time), and — BT being non-negative per the input
contract — the clock is monotonically non-decreasing across the whole
run, so no later queue starts before every earlier queue finished. -/
theorem mlq_clock_handoff (i : Nat) (q : List Process)
    (qs : List (List Process)) (t t1 t2 : Int) (q1 : List Process)
    (qs2 : List (List Process))
    (hbt : ∀ q' ∈ q :: qs, ∀ p ∈ q', 0 ≤ p.pcb.bt)
    (h1 : mlqStep i q t = some (q1, t1))
    (h2 : mlqRunFrom (i + 1) qs t1 = some (qs2, t2)) :
    mlqRunFrom i (q :: qs) t = some (q1 :: qs2, t2) ∧ t ≤ t1 ∧ t1 ≤ t2 := by
  refine ⟨by simp only [mlqRunFrom, h1, h2], ?_, ?_⟩
  · exact mlqStep_time_mono i q q1 t t1
      (hbt q (List.mem_cons_self q qs)) h1
  · exact mlqRunFrom_time_mono qs (i + 1) t1 t2 qs2
      (fun r hr => hbt r (List.mem_cons_of_mem q hr)) h2

/-- Witness for C8: queue 1 = [{p1, AT=0, BT=2}] under RR(3) runs from
clock 0 to 2, and queue 2 = [{p2, AT=0, BT=3}] under RR(5) starts exactly
at 2 and ends at 5. -/
theorem mlq_clock_handoff_witness :
    mlqRunFrom 0 [[mkP "p1" 0 2], [mkP "p2" 0 3]] 0 =
      some ([[⟨"p1", ⟨0, 2, 2, 2, 0, 0, 2, 2, true, 1, "1"⟩⟩],
        [⟨"p2", ⟨0, 3, 3, 5, 2, 2, 5, 5, true, 1, "1"⟩⟩]], 5) ∧
    (0 : Int) ≤ 2 ∧ (2 : Int) ≤ 5 :=
  mlq_clock_handoff 0 [mkP "p1" 0 2] [[mkP "p2" 0 3]] 0 2 5
    [⟨"p1", ⟨0, 2, 2, 2, 0, 0, 2, 2, true, 1, "1"⟩⟩]
    [[⟨"p2", ⟨0, 3, 3, 5, 2, 2, 5, 5, true, 1, "1"⟩⟩]]
    (by decide) (by decide) (by decide)

/-- A queue index ≥ 3 matches no branch of `MLQ.start_processing`: the
queue and the clock come back unchanged. -/
theorem mlqStep_skip (i : Nat) (q : List Process) (t : Int) (hi : 3 ≤ i) :
    mlqStep i q t = some (q, t) := by
  unfold mlqStep
  have h0 : ¬i = 0 := by omega
  have h1 : ¬i = 1 := by omega
  have h2 : ¬i = 2 := by omega
  by_cases hl : q.length > 0
  · rw [if_pos hl, if_neg h0, if_neg h1, if_neg h2]
  · rw [if_neg hl]

/-- C1 counterexample: a process declaring queue 4 is partitioned into
the fourth queue, but `MLQ.start_processing` (mlq.py:34-48) only has
branches for queue indices 0, 1 and 2, so the process is never executed:
after the whole run its PCB still carries the unset RT sentinel −1,
whereas running it under FCFS — as the claim asserts for every queue
number ≥ 3 — would have set RT := 0. -/
theorem mlq_queue4_cex :
    partitionQueues [⟨"s1", initPCB 0 3 4 "1"⟩] =
      some [[], [], [], [⟨"s1", initPCB 0 3 4 "1"⟩]] ∧
    mlqStart [[], [], [], [⟨"s1", initPCB 0 3 4 "1"⟩]] =
      some ([[], [], [], [⟨"s1", initPCB 0 3 4 "1"⟩]], 0) ∧
    (⟨"s1", initPCB 0 3 4 "1"⟩ : Process).pcb.rt = -1 ∧
    (fcfsStart [⟨"s1", initPCB 0 3 4 "1"⟩] 0).map
        (fun r => r.1.map (fun p => p.pcb.rt)) = some [0] ∧
    ((-1 : Int) ≠ 0) :=
  ⟨by decide, by decide, by decide, by decide, by decide⟩

/-- C1 (amended): the dispatcher's fixed policy table covers exactly
queues 1–3: a non-empty queue at index 0 runs under RR(quantum 3), index
1 under RR(quantum 5), index 2 under FCFS, and every queue at index ≥ 3
(declared queue number ≥ 4) matches no branch — the whole run returns it
unchanged, its processes never executed by any engine. -/
theorem mlq_policy_amended :
    (∀ (q : List Process) (t : Int), q ≠ [] →
      mlqStep 0 q t = rrStart 3 (rrFuel q) q t ∧
      mlqStep 1 q t = rrStart 5 (rrFuel q) q t ∧
      mlqStep 2 q t = fcfsStart q t) ∧
    (∀ (i : Nat) (qs : List (List Process)) (t : Int)
       (qs' : List (List Process)) (t' : Int),
      mlqRunFrom i qs t = some (qs', t') →
      ∀ (j : Nat) (q : List Process), 3 ≤ i + j → qs.get? j = some q →
        qs'.get? j = some q) := by
  constructor
  · intro q t hne
    have hl : q.length > 0 := List.length_pos.2 hne
    refine ⟨?_, ?_, ?_⟩ <;> simp [mlqStep, hl]
  · intro i qs
    induction qs generalizing i with
    | nil =>
        intro t qs' t' h j q hij hq
        cases hq
    | cons q0 rest ih =>
        intro t qs' t' h j q hij hq
        cases h1 : mlqStep i q0 t with
        | none =>
            simp only [mlqRunFrom, h1] at h
            cases h
        | some r1 =>
            cases r1 with
            | mk q1 t1 =>
                cases h2 : mlqRunFrom (i + 1) rest t1 with
                | none =>
                    simp only [mlqRunFrom, h1, h2] at h
                    cases h
                | some r2 =>
                    cases r2 with
                    | mk qs2 t2 =>
                        simp only [mlqRunFrom, h1, h2,
                          Option.some.injEq] at h
                        have hqs' : q1 :: qs2 = qs' := congrArg Prod.fst h
                        subst hqs'
                        cases j with
                        | zero =>
                            have hskip := mlqStep_skip i q0 t (by omega)
                            have hpair : (q0, t) = (q1, t1) :=
                              Option.some.inj (hskip.symm.trans h1)
                            have hq1 : q0 = q1 := congrArg Prod.fst hpair
                            have hq0 : q0 = q := Option.some.inj hq
                            show some q1 = some q
                            rw [← hq1, hq0]
                        | succ j' =>
                            exact ih (i + 1) t1 qs2 t2 h2 j' q (by omega)
                              (by simpa using hq)

/-- Witness for C1 (amended): after the whole MLQ run on queues
`[[], [], [], [queue-4 process]]` the fourth queue is returned unchanged. -/
theorem mlq_policy_amended_witness :
    ([[], [], [], [⟨"s1", initPCB 0 3 4 "1"⟩]] :
        List (List Process)).get? 3 =
      some [⟨"s1", initPCB 0 3 4 "1"⟩] :=
  mlq_policy_amended.2 0 [[], [], [], [⟨"s1", initPCB 0 3 4 "1"⟩]] 0
    [[], [], [], [⟨"s1", initPCB 0 3 4 "1"⟩]] 0 (by decide) 3
    [⟨"s1", initPCB 0 3 4 "1"⟩] (by decide) (by decide)

/-! ## Round Robin with quantum covering every burst (for C7) -/

theorem set_append_head (A : List Process) (b x : Process)
    (B : List Process) : (A ++ b :: B).set A.length x = A ++ x :: B := by
  rw [List.set_append_right _ _ (le_refl A.length)]
  simp

theorem get?_append_head (A : List Process) (b : Process)
    (B : List Process) : (A ++ b :: B).get? A.length = some b := by
  rw [List.get?_append_right (le_refl A.length)]
  simp

theorem findFrom_append (A B : List Process) :
    findFrom (A ++ B) A.length = findFromAux B A.length := by
  unfold findFrom
  rw [List.drop_left]

theorem findFrom_zero (l : List Process) :
    findFrom l 0 = findFromAux l 0 := by
  unfold findFrom
  rw [List.drop_zero]

/-- `next_process` finds nothing when every process is done and the clock
has moved past the start time. -/
theorem next_process_all_done (A : List Process) (t0 t : Int) (idx : Nat)
    (hA : ∀ p ∈ A, p.pcb.done = true) (ht : ¬t = t0) :
    next_process ⟨A, t, t0, idx⟩ = none := by
  unfold next_process
  rw [if_neg ht]
  have h1 : findFrom A (idx + 1) = none := by
    unfold findFrom
    exact (findFromAux_none _ _).2 fun p hp =>
      hA p (List.mem_of_mem_drop hp)
  rw [h1, findFrom_zero]
  exact (findFromAux_none _ _).2 hA

/-- `next_process` on a queue whose first `A.length` processes are done,
followed by a live process, sitting at current index `A.length - 1` past
the first dispatch: it picks exactly that live process. -/
theorem next_process_oneshot (A : List Process) (b : Process)
    (B : List Process) (t0 t : Int) (hAne : A ≠ []) (ht : ¬t = t0)
    (hb : b.pcb.done = false) :
    next_process ⟨A ++ b :: B, t, t0, A.length - 1⟩ = some A.length := by
  have hidx : A.length - 1 + 1 = A.length := by
    have : 0 < A.length := List.length_pos.2 hAne
    omega
  unfold next_process
  rw [if_neg ht]
  show (match findFrom (A ++ b :: B) (A.length - 1 + 1) with
    | some j => some j
    | none => findFrom (A ++ b :: B) 0) = some A.length
  rw [hidx, findFrom_append]
  simp only [findFromAux, hb]
  rfl

/-- When the quantum covers every remaining burst, the Round-Robin loop
runs the fresh tail `B` one process at a time, each in a single finishing
slice, in order — producing exactly the FCFS metrics (WT/CT/RT/TAT) and
the FCFS end time on that tail. -/
theorem rrLoop_oneshot (quantum : Nat) :
    ∀ (B A : List Process) (fuel : Nat) (t0 t : Int),
    (∀ p ∈ A, p.pcb.done = true) →
    (∀ p ∈ B, p.pcb.done = false ∧ p.pcb.te = 0 ∧ p.pcb.rt < 0 ∧
      1 ≤ p.pcb.bt ∧ p.pcb.bt ≤ (quantum : Int)) →
    t0 < t → A ≠ [] → B.length < fuel →
    ∃ (C : List Process) (idx : Nat),
      rrLoop quantum fuel ⟨A ++ B, t, t0, A.length - 1⟩ =
        some ⟨A ++ C, (fcfsExec B t).2, t0, idx⟩ ∧
      C.map metricsView = (fcfsExec B t).1.map metricsView
  | [], A, fuel, t0, t, hA, _, ht, hAne, hfuel => by
      cases fuel with
      | zero => exact absurd hfuel (by omega)
      | succ f =>
          have hn : next_process ⟨A ++ [], t, t0, A.length - 1⟩ = none := by
            rw [List.append_nil]
            exact next_process_all_done A t0 t (A.length - 1) hA
              (by omega)
          refine ⟨[], A.length - 1, ?_, by simp [fcfsExec]⟩
          simp only [rrLoop, hn]
          rfl
  | b :: B', A, fuel, t0, t, hA, hB, ht, hAne, hfuel => by
      cases fuel with
      | zero => exact absurd hfuel (by omega)
      | succ f =>
          obtain ⟨hbd, hbte, hbrt, hbbt, hbq⟩ :=
            hB b (List.mem_cons_self b B')
          have hn := next_process_oneshot A b B' t0 t hAne (by omega) hbd
          have hj : (⟨A ++ b :: B', t, t0,
              A.length - 1⟩ : RRState).queue.get? A.length = some b :=
            get?_append_head A b B'
          have hex := step_finish quantum
            ⟨A ++ b :: B', t, t0, A.length - 1⟩ A.length b hj
            (by omega) (by omega)
          rw [hbte, sub_zero] at hex
          have hstate : sliceResult ⟨A ++ b :: B', t, t0, A.length - 1⟩
              A.length b (t + b.pcb.bt) true =
              ⟨(A ++ [Process.mk b.tag
                  (slicePCB b.pcb t (t + b.pcb.bt) true)]) ++ B',
                t + b.pcb.bt, t0,
                (A ++ [Process.mk b.tag
                  (slicePCB b.pcb t (t + b.pcb.bt) true)]).length - 1⟩ := by
            simp only [sliceResult]
            congr 1
            · rw [set_append_head]
              simp
            · simp
          rw [hstate] at hex
          have hdone' : ∀ p ∈ A ++ [Process.mk b.tag
              (slicePCB b.pcb t (t + b.pcb.bt) true)],
              p.pcb.done = true := by
            intro p hp
            rcases List.mem_append.1 hp with hp | hp
            · exact hA p hp
            · rw [List.mem_singleton] at hp
              subst hp
              rw [pcb_mk, slicePCB_done]
              rfl
          obtain ⟨C', idx', hloop', hview'⟩ := rrLoop_oneshot quantum B'
            (A ++ [Process.mk b.tag (slicePCB b.pcb t (t + b.pcb.bt) true)])
            f t0 (t + b.pcb.bt) hdone'
            (fun p hp => hB p (List.mem_cons_of_mem b hp))
            (by omega) (by simp) (by simpa using hfuel)
          refine ⟨Process.mk b.tag (slicePCB b.pcb t (t + b.pcb.bt) true)
            :: C', idx', ?_, ?_⟩
          · rw [(show (A ++ [Process.mk b.tag
                (slicePCB b.pcb t (t + b.pcb.bt) true)]) ++ C' =
                A ++ Process.mk b.tag (slicePCB b.pcb t (t + b.pcb.bt) true)
                  :: C' by simp)] at hloop'
            show rrLoop quantum (f + 1) ⟨A ++ b :: B', t, t0, A.length - 1⟩ =
              some ⟨A ++ Process.mk b.tag
                  (slicePCB b.pcb t (t + b.pcb.bt) true) :: C',
                (fcfsExec B' (t + b.pcb.bt)).2, t0, idx'⟩
            simp only [rrLoop, hn, hex]
            exact hloop'
          · have hhead : (fcfsExec (b :: B') t).1.map metricsView =
                metricsView (Process.mk b.tag { b.pcb with
                  rt := t, wt := t - b.pcb.at_, ct := t + b.pcb.bt,
                  tat := t + b.pcb.bt - b.pcb.at_ }) ::
                  (fcfsExec B' (t + b.pcb.bt)).1.map metricsView := by
              have : (fcfsExec (b :: B') t).1 = { b with pcb := { b.pcb with
                  rt := t, wt := t - b.pcb.at_, ct := t + b.pcb.bt,
                  tat := t + b.pcb.bt - b.pcb.at_ } } ::
                  (fcfsExec B' (t + b.pcb.bt)).1 := rfl
              rw [this, List.map_cons]
            rw [List.map_cons, hhead, hview']
            congr 1
            unfold metricsView
            rw [pcb_mk]
            simp only [slicePCB, state_save, mark_process_done, if_true]
            rw [if_pos hbrt,
              (show t + b.pcb.bt - b.pcb.at_ - b.pcb.bt = t - b.pcb.at_
                by omega)]

/-- C7: on a non-empty fresh queue in which the quantum is at least every
burst time, Round Robin from a given start time produces WT, CT, RT and
TAT for every process identical to FCFS on the same sorted input from the
same start time, and the same end time (fuel `q.length + 1` suffices:
every process completes in its single dispatch). -/
theorem rr_big_quantum_matches_fcfs (quantum : Nat)
    (q outF : List Process) (t0 tF : Int)
    (hfresh : ∀ p ∈ q, p.pcb.done = false ∧ p.pcb.te = 0 ∧ p.pcb.rt < 0 ∧
      1 ≤ p.pcb.bt ∧ p.pcb.bt ≤ (quantum : Int))
    (hf : fcfsStart q t0 = some (outF, tF)) :
    ∃ outR, rrStart quantum (q.length + 1) q t0 = some (outR, tF) ∧
      outR.map metricsView = outF.map metricsView := by
  cases ho : order_queue q with
  | none =>
      unfold fcfsStart at hf
      rw [ho] at hf
      cases hf
  | some sorted =>
      unfold fcfsStart at hf
      rw [ho] at hf
      simp only [Option.map_some', Option.some.injEq] at hf
      have houtF : (fcfsExec sorted t0).1 = outF := congrArg Prod.fst hf
      have htF : (fcfsExec sorted t0).2 = tF := congrArg Prod.snd hf
      have hperm := order_queue_perm q sorted ho
      have hfreshs : ∀ p ∈ sorted, p.pcb.done = false ∧ p.pcb.te = 0 ∧
          p.pcb.rt < 0 ∧ 1 ≤ p.pcb.bt ∧ p.pcb.bt ≤ (quantum : Int) :=
        fun p hp => hfresh p (hperm.subset hp)
      have hlen : sorted.length = q.length := hperm.length_eq
      cases hs : sorted with
      | nil =>
          subst hs
          have hqnil : q = [] := hperm.symm.eq_nil
          rw [hqnil] at ho
          exact absurd ho (by decide)
      | cons b B' =>
          subst hs
          obtain ⟨hbd, hbte, hbrt, hbbt, hbq⟩ :=
            hfreshs b (List.mem_cons_self b B')
          have hn0 : next_process ⟨b :: B', t0, t0, 0⟩ = some 0 := by
            simp [next_process]
          have hex0 := step_finish quantum ⟨b :: B', t0, t0, 0⟩ 0 b rfl
            (by omega) (by omega)
          rw [hbte, sub_zero] at hex0
          obtain ⟨C, idx, hloop, hview⟩ := rrLoop_oneshot quantum B'
            [Process.mk b.tag (slicePCB b.pcb t0 (t0 + b.pcb.bt) true)]
            q.length t0 (t0 + b.pcb.bt)
            (by
              intro p hp
              rw [List.mem_singleton] at hp
              subst hp
              rw [pcb_mk, slicePCB_done]
              rfl)
            (fun p hp => hfreshs p (List.mem_cons_of_mem b hp))
            (by omega) (by simp) (by simp at hlen; omega)
          refine ⟨Process.mk b.tag
            (slicePCB b.pcb t0 (t0 + b.pcb.bt) true) :: C, ?_, ?_⟩
          · rw [(show ([Process.mk b.tag
                (slicePCB b.pcb t0 (t0 + b.pcb.bt) true)]) ++ C =
                Process.mk b.tag (slicePCB b.pcb t0 (t0 + b.pcb.bt) true)
                  :: C by simp)] at hloop
            have hrun : rrLoop quantum (q.length + 1) ⟨b :: B', t0, t0, 0⟩ =
                some ⟨Process.mk b.tag
                    (slicePCB b.pcb t0 (t0 + b.pcb.bt) true) :: C,
                  (fcfsExec B' (t0 + b.pcb.bt)).2, t0, idx⟩ := by
              simp only [rrLoop, hn0, hex0]
              exact hloop
            rw [← htF]
            show rrStart quantum (q.length + 1) q t0 =
              some (Process.mk b.tag
                  (slicePCB b.pcb t0 (t0 + b.pcb.bt) true) :: C,
                (fcfsExec B' (t0 + b.pcb.bt)).2)
            simp only [rrStart, ho, hrun]
          · rw [← houtF]
            have hhead : (fcfsExec (b :: B') t0).1 =
                { b with pcb := { b.pcb with
                  rt := t0, wt := t0 - b.pcb.at_, ct := t0 + b.pcb.bt,
                  tat := t0 + b.pcb.bt - b.pcb.at_ } } ::
                  (fcfsExec B' (t0 + b.pcb.bt)).1 := rfl
            rw [hhead, List.map_cons, List.map_cons, hview]
            congr 1
            unfold metricsView
            rw [pcb_mk]
            simp only [slicePCB, state_save, mark_process_done, if_true]
            rw [if_pos hbrt,
              (show t0 + b.pcb.bt - b.pcb.at_ - b.pcb.bt = t0 - b.pcb.at_
                by omega)]

/-- Witness for C7: quantum 5 ≥ max BT on the fresh queue
[{p1, AT=0, BT=3}, {p2, AT=1, BT=5}] from time 0. -/
theorem rr_big_quantum_matches_fcfs_witness :
    ∃ outR, rrStart 5 (([mkP "p1" 0 3, mkP "p2" 1 5] :
        List Process).length + 1) [mkP "p1" 0 3, mkP "p2" 1 5] 0 =
        some (outR, 8) ∧
      outR.map metricsView =
        ([⟨"p1", ⟨0, 3, 0, 3, 0, 0, 3, 0, false, 1, "1"⟩⟩,
          ⟨"p2", ⟨1, 5, 0, 8, 2, 3, 7, 0, false, 1, "1"⟩⟩] :
          List Process).map metricsView :=
  rr_big_quantum_matches_fcfs 5 [mkP "p1" 0 3, mkP "p2" 1 5]
    [⟨"p1", ⟨0, 3, 0, 3, 0, 0, 3, 0, false, 1, "1"⟩⟩,
     ⟨"p2", ⟨1, 5, 0, 8, 2, 3, 7, 0, false, 1, "1"⟩⟩] 0 8
    (by decide) (by decide)

end MLQSched
